import Mathlib

/-!
Shallow embedding of a sliding-window reliable-transport pair:
a sender (client.py, `run_client`) and a receiver (server.py, `handle_client`)
exchanging newline-framed JSON records over a byte stream.

Python dicts keyed by integers are modelled as association lists with
lookup / erase / insert-overwrite operations; machine integers are `ℤ`
(Python ints are unbounded); wall-clock times are `ℚ`; payload byte
lengths use `String.utf8ByteSize` (Python `len(payload.encode())`).
-/

namespace RTP

/-- Lookup in an association list, the model of `d[k]` / `d.get(k)` on a
Python dict keyed by integers. -/
def dlookup {α : Type} (k : ℤ) : List (ℤ × α) → Option α
  | [] => none
  | e :: rest => if e.1 = k then some e.2 else dlookup k rest

/-- Removal of a key, the model of `d.pop(k)`'s effect on the dict. -/
def derase {α : Type} (k : ℤ) : List (ℤ × α) → List (ℤ × α)
  | [] => []
  | e :: rest => if e.1 = k then derase k rest else e :: derase k rest

/-- Insertion with overwrite, the model of `d[k] = v`. -/
def dinsert {α : Type} (k : ℤ) (v : α) (m : List (ℤ × α)) : List (ℤ × α) :=
  (k, v) :: derase k m

/-- The `seq` field of a decoded record as the server reads it with
`seg.get("seq")` and then tests `seq is None or not isinstance(seq, int)`:
absent, present but not an integer, or an integer value. -/
inductive SeqField
  | absent
  | notInt
  | val (n : ℤ)
deriving DecidableEq

/-- The `payload` field of a decoded record as the server reads it with
`seg.get("payload", "")`: absent (defaulting to the empty string),
JSON null (`payload is None`), or a string. -/
inductive PayloadField
  | absent
  | null
  | str (s : String)
deriving DecidableEq

/-- A decoded record as the server's transfer loop inspects it:
`seg.get("type")`, `seg.get("seq")`, `seg.get("payload", "")`, plus the
`reason` field the decoder itself puts on a malformed record. -/
structure SrvMsg where
  mtype : Option String
  seq : SeqField
  payload : PayloadField
  reason : Option String
deriving DecidableEq

/-- `seg.get("payload", "")` combined with the later `payload is None`
test: an absent field collapses to the empty string, JSON null to `none`. -/
def payloadOf : PayloadField → Option String
  | .absent => some ""
  | .null => none
  | .str s => some s

/-- Receiver-side state of `handle_client`: `rcv_base`, `rcv_buffer`,
`app_data`, the current `mss`, the originally configured
`cfg["maximum message size"]` (the growth ceiling), and `dyn_mss`. -/
structure RecvState where
  rcvBase : ℤ
  rcvBuffer : List (ℤ × String)
  appData : List String
  mss : ℤ
  origMss : ℤ
  dynMss : Bool
deriving DecidableEq

/-- A message the server writes back during the transfer loop. -/
inductive SrvOut
  | cumAck (ack : ℤ) (msize : Option ℤ)
  | finAck
deriving DecidableEq

/-- The in-order delivery loop
`while rcv_base in rcv_buffer: app_data.append(rcv_buffer.pop(rcv_base)); rcv_base += 1`,
written with explicit fuel; each turn removes one buffer entry, so fuel
equal to the buffer size never runs out. -/
def deliverLoopF : ℕ → ℤ → List (ℤ × String) → List String →
    ℤ × List (ℤ × String) × List String
  | 0, b, buf, acc => (b, buf, acc)
  | fuel + 1, b, buf, acc =>
    match dlookup b buf with
    | some v => deliverLoopF fuel (b + 1) (derase b buf) (acc ++ [v])
    | none => (b, buf, acc)

/-- The delivery loop at its natural fuel. -/
def deliverLoop (b : ℤ) (buf : List (ℤ × String)) (acc : List String) :
    ℤ × List (ℤ × String) × List String :=
  deliverLoopF buf.length b buf acc

/-- Lines 175-179 of server.py: buffer the payload at its seq when
`seq >= rcv_base`, then drain the contiguous run. -/
def deliverStep (s : RecvState) (q : ℤ) (p : String) : RecvState :=
  if s.rcvBase ≤ q then
    let r := deliverLoop s.rcvBase (dinsert q p s.rcvBuffer) s.appData
    { s with rcvBase := r.1, rcvBuffer := r.2.1, appData := r.2.2 }
  else s

/-- Lines 182-186 of server.py: the optional dynamic MSS feedback. -/
def adaptStep (s : RecvState) : RecvState :=
  if s.dynMss then
    if 2 < s.rcvBuffer.length then { s with mss := max 20 (s.mss - 20) }
    else if s.rcvBuffer.length = 0 then { s with mss := min s.origMss (s.mss + 10) }
    else s
  else s

/-- `send_ack` of server.py: `ack = rcv_base - 1`, carrying the current
`mss` exactly when `dyn_mss` is set. -/
def sendAck (s : RecvState) : SrvOut :=
  .cumAck (s.rcvBase - 1) (if s.dynMss then some s.mss else none)

/-- Lines 155-188 of server.py: what the transfer loop does with a record
already known to be DATA, given its seq and payload fields: validity
check, duplicate check, MSS check, buffer-and-drain, adaptation, ACK. -/
def handleData (s : RecvState) (sq : SeqField) (pl : PayloadField) :
    RecvState × List SrvOut × Bool :=
  match sq with
  | .absent => (s, [sendAck s], true)
  | .notInt => (s, [sendAck s], true)
  | .val q =>
    if q < s.rcvBase then (s, [sendAck s], true)
    else
      match payloadOf pl with
      | none => (s, [sendAck s], true)
      | some p =>
        if (p.utf8ByteSize : ℤ) > s.mss then (s, [sendAck s], true)
        else
          let s2 := adaptStep (deliverStep s q p)
          (s2, [sendAck s2], true)

/-- One turn of the server's transfer loop (lines 146-188 of server.py) on
one decoded record: the new state, the records written back, and whether
the loop continues (`false` on FIN). -/
def handleClientStep (s : RecvState) (m : SrvMsg) : RecvState × List SrvOut × Bool :=
  if m.mtype = some "FIN" then (s, [.finAck], false)
  else if m.mtype ≠ some "DATA" then (s, [], true)
  else handleData s m.seq m.payload

/-- The transfer loop over a sequence of decoded records, stopping when a
turn reports the loop is over. -/
def runServer (s : RecvState) : List SrvMsg → RecvState × List SrvOut
  | [] => (s, [])
  | m :: rest =>
    let r := handleClientStep s m
    if r.2.2 then
      let r2 := runServer r.1 rest
      (r2.1, r.2.1 ++ r2.2)
    else (r.1, r.2.1)

/-- Receiver state at the start of a session: `rcv_base = 0`, empty
buffer and accumulator, `mss` at its configured value. -/
def initRecv (mss0 : ℤ) (dyn : Bool) : RecvState :=
  ⟨0, [], [], mss0, mss0, dyn⟩

/-- The DATA record the sender emits for segment `n` of the source cut
`segs`. -/
def dataMsg (segs : ℕ → String) (n : ℕ) : SrvMsg :=
  ⟨some "DATA", .val (n : ℤ), .str (segs n), none⟩

/-- What one read from the stream can hold: a closed connection, a
syntactically valid record, or a syntactically invalid one. -/
inductive Wire (μ : Type)
  | closed
  | valid (m : μ)
  | invalid

/-- `recv_msg` of server.py: an empty read gives `None`; a JSON parse
failure gives the record `{"type": "ERR", "reason": "bad_json"}`. -/
def serverRecvMsg : Wire SrvMsg → Option SrvMsg
  | .closed => none
  | .valid m => some m
  | .invalid => some ⟨some "ERR", .absent, .absent, some "bad_json"⟩

/-- A decoded record as the client reads it: `get("type")`, `get("ack")`,
and the `"maximum message size"` field. -/
structure CliMsg where
  mtype : Option String
  ack : Option ℤ
  msize : Option ℤ
deriving DecidableEq

/-- `recv_msg` of client.py: an empty read gives `None`, and a JSON parse
failure also gives `None`. -/
def clientRecvMsg : Wire CliMsg → Option CliMsg
  | .closed => none
  | .valid m => some m
  | .invalid => none

/-- Sender-side state of `run_client`'s transfer phase: `file_cursor`,
`sent_packets_buffer`, `base`, `next_seq_num`, the current `mms`, and
`timer_start` (None when disarmed). Payload elements are abstract. -/
structure SendState (α : Type) where
  fileCursor : ℕ
  buffer : List (ℤ × List α)
  base : ℤ
  nextSeq : ℤ
  mms : ℤ
  timer : Option ℚ

/-- The window-filling loop (lines 142-159 of client.py), with fuel: cut
the next `mms`-sized slice, store it, emit it, arm the timer when it is
the first outstanding segment, advance the cursor and `next_seq_num`. -/
def sendWindowF {α : Type} (data : List α) (W : ℤ) (now : ℚ) :
    ℕ → SendState α → SendState α × List (ℤ × List α)
  | 0, s => (s, [])
  | fuel + 1, s =>
    if s.nextSeq < s.base + W ∧ s.fileCursor < data.length then
      let payload := (data.drop s.fileCursor).take s.mms.toNat
      let s1 : SendState α :=
        { fileCursor := s.fileCursor + payload.length
          buffer := dinsert s.nextSeq payload s.buffer
          base := s.base
          nextSeq := s.nextSeq + 1
          mms := s.mms
          timer := if s.base = s.nextSeq then some now else s.timer }
      let r := sendWindowF data W now fuel s1
      (r.1, (s.nextSeq, payload) :: r.2)
    else (s, [])

/-- The filling loop at its natural fuel (the loop adds one to
`next_seq_num` per turn and stops at `base + window_size`). -/
def sendWindow {α : Type} (data : List α) (W : ℤ) (now : ℚ) (s : SendState α) :
    SendState α × List (ℤ × List α) :=
  sendWindowF data W now (s.base + W - s.nextSeq).toNat s

/-- Lines 164-180 of client.py: what the acknowledgment poll does with one
decoded record. A missing `ack` field raises a TypeError inside the `try`
and is swallowed by the `except`, leaving the state unchanged. -/
def processAckMsg {α : Type} (isDyn : Bool) (now : ℚ) (s : SendState α)
    (msg : CliMsg) : SendState α :=
  if msg.mtype = some "ACK" then
    match msg.ack with
    | none => s
    | some a =>
      if a ≥ s.base then
        let s1 := { s with base := a + 1 }
        let s2 := { s1 with timer := if s1.base < s1.nextSeq then some now else none }
        if isDyn then
          match msg.msize with
          | some z => { s2 with mms := z }
          | none => s2
        else s2
      else s
  else s

/-- The acknowledgment poll (lines 162-184 of client.py) on one decoded
record, or on none when the short read timed out. -/
def processAck {α : Type} (isDyn : Bool) (now : ℚ) (s : SendState α)
    (m : Option CliMsg) : SendState α :=
  match m with
  | none => s
  | some msg => processAckMsg isDyn now s msg

/-- `range(base, next_seq_num)` as the sender iterates it. -/
def outSeqs {α : Type} (s : SendState α) : List ℤ :=
  (List.range (s.nextSeq - s.base).toNat).map (fun i : ℕ => s.base + (i : ℤ))

/-- The timeout check (lines 187-196 of client.py): when the timer is
armed and has been running longer than the timeout, rearm it and resend
the buffered record for every seq of `range(base, next_seq_num)` still in
`sent_packets_buffer`. -/
def checkTimeout {α : Type} (tmo now : ℚ) (s : SendState α) :
    SendState α × List (ℤ × List α) :=
  match s.timer with
  | none => (s, [])
  | some t =>
    if now - t > tmo then
      ({ s with timer := some now },
        (outSeqs s).filterMap (fun q => (dlookup q s.buffer).map (fun p => (q, p))))
    else (s, [])

/-- The window bound of the spec: `base ≤ nextSeq ≤ base + windowSize`. -/
def windowInv {α : Type} (W : ℤ) (s : SendState α) : Prop :=
  s.base ≤ s.nextSeq ∧ s.nextSeq ≤ s.base + W

instance {α : Type} (W : ℤ) (s : SendState α) : Decidable (windowInv W s) :=
  inferInstanceAs (Decidable (_ ∧ _))

/-- Sender state as the transfer phase starts (lines 128-133 of
client.py). -/
def initSend (α : Type) (mms0 : ℤ) : SendState α :=
  ⟨0, [], 0, 0, mms0, none⟩

/-- The cumulative-ACK values among a list of server outputs. -/
def ackValues : List SrvOut → List ℤ :=
  List.filterMap (fun o => match o with | .cumAck a _ => some a | .finAck => none)

/-- The invariant the receiver maintains while processing the DATA records
of segments cut from one source (`done` lists the seqs processed so far):
the accumulator is exactly the prefix of segments below `rcv_base`, the
next expected seq is never buffered, buffered entries carry the right
payload for an already-arrived seq at or above `rcv_base`, every arrived
seq is delivered or buffered, and every delivered seq has arrived. -/
def RecvInv (segs : ℕ → String) (done : List ℕ) (s : RecvState) : Prop :=
  0 ≤ s.rcvBase ∧
  20 ≤ s.mss ∧
  20 ≤ s.origMss ∧
  s.appData = (List.range s.rcvBase.toNat).map segs ∧
  dlookup s.rcvBase s.rcvBuffer = none ∧
  (∀ e ∈ s.rcvBuffer, s.rcvBase ≤ e.1 ∧ ∃ n ∈ done, (n : ℤ) = e.1 ∧ e.2 = segs n) ∧
  (∀ n ∈ done, (n : ℤ) < s.rcvBase ∨ dlookup (n : ℤ) s.rcvBuffer ≠ none) ∧
  (∀ j : ℕ, (j : ℤ) < s.rcvBase → j ∈ done)

/-! ### Association-list lemmas -/

theorem dlookup_derase {α : Type} (k j : ℤ) (m : List (ℤ × α)) :
    dlookup k (derase j m) = if k = j then none else dlookup k m := by
  induction m with
  | nil => simp [derase, dlookup]
  | cons e rest ih =>
    by_cases he : e.1 = j
    · rw [show derase j (e :: rest) = derase j rest from by simp [derase, he], ih]
      by_cases hk : k = j
      · simp [hk]
      · rw [if_neg hk, if_neg hk]
        have hek : e.1 ≠ k := by rw [he]; exact fun hc => hk hc.symm
        simp [dlookup, hek]
    · rw [show derase j (e :: rest) = e :: derase j rest from by simp [derase, he]]
      by_cases hek : e.1 = k
      · have hkj : k ≠ j := fun hc => he (hek.trans hc)
        simp [dlookup, hek, hkj]
      · simp only [dlookup, if_neg hek, ih]

theorem mem_derase {α : Type} {k : ℤ} {m : List (ℤ × α)} {e : ℤ × α} :
    e ∈ derase k m ↔ e ∈ m ∧ e.1 ≠ k := by
  induction m with
  | nil => simp [derase]
  | cons a rest ih =>
    by_cases ha : a.1 = k
    · simp only [derase, if_pos ha, ih, List.mem_cons]
      constructor
      · rintro ⟨h1, h2⟩
        exact ⟨Or.inr h1, h2⟩
      · rintro ⟨h1 | h1, h2⟩
        · cases h1
          exact absurd ha h2
        · exact ⟨h1, h2⟩
    · simp only [derase, if_neg ha, List.mem_cons, ih]
      constructor
      · rintro (h | ⟨h1, h2⟩)
        · exact ⟨Or.inl h, h ▸ ha⟩
        · exact ⟨Or.inr h1, h2⟩
      · rintro ⟨h1 | h1, h2⟩
        · exact Or.inl h1
        · exact Or.inr ⟨h1, h2⟩

theorem dlookup_some_mem {α : Type} {k : ℤ} {m : List (ℤ × α)} {v : α}
    (h : dlookup k m = some v) : (k, v) ∈ m := by
  induction m with
  | nil => simp [dlookup] at h
  | cons e rest ih =>
    simp only [dlookup] at h
    split at h
    · rename_i he
      cases h
      have hkv : (k, e.2) = e := by rw [← he]
      rw [hkv]
      exact List.mem_cons_self e rest
    · exact List.mem_cons_of_mem _ (ih h)

theorem dlookup_none_iff {α : Type} {k : ℤ} {m : List (ℤ × α)} :
    dlookup k m = none ↔ ∀ v, (k, v) ∉ m := by
  induction m with
  | nil => simp [dlookup]
  | cons e rest ih =>
    simp only [dlookup]
    by_cases he : e.1 = k
    · simp only [if_pos he]
      constructor
      · intro h
        cases h
      · intro h
        exfalso
        apply h e.2
        have hkv : (k, e.2) = e := by rw [← he]
        rw [hkv]
        exact List.mem_cons_self e rest
    · simp only [if_neg he, ih]
      constructor
      · intro h v hv
        rcases List.mem_cons.mp hv with h1 | h1
        · exact absurd (by rw [← h1] : e.1 = k) he
        · exact h v h1
      · intro h v hv
        exact h v (List.mem_cons_of_mem _ hv)

theorem dlookup_ne_none_of_mem {α : Type} {k : ℤ} {m : List (ℤ × α)} {v : α}
    (h : (k, v) ∈ m) : dlookup k m ≠ none := by
  intro hn
  exact (dlookup_none_iff.mp hn) v h

theorem derase_length_le {α : Type} (k : ℤ) (m : List (ℤ × α)) :
    (derase k m).length ≤ m.length := by
  induction m with
  | nil => simp [derase]
  | cons e rest ih =>
    by_cases he : e.1 = k
    · simp only [derase, if_pos he, List.length_cons]
      omega
    · simp only [derase, if_neg he, List.length_cons]
      omega

theorem derase_length_lt {α : Type} {k : ℤ} {m : List (ℤ × α)} {v : α}
    (h : dlookup k m = some v) : (derase k m).length < m.length := by
  induction m with
  | nil => simp [dlookup] at h
  | cons e rest ih =>
    by_cases he : e.1 = k
    · simp only [derase, if_pos he, List.length_cons]
      have := derase_length_le k rest
      omega
    · simp only [dlookup, if_neg he] at h
      simp only [derase, if_neg he, List.length_cons]
      exact Nat.succ_lt_succ (ih h)

theorem dlookup_dinsert_self {α : Type} (k : ℤ) (v : α) (m : List (ℤ × α)) :
    dlookup k (dinsert k v m) = some v := by
  simp [dinsert, dlookup]

theorem dlookup_dinsert_ne {α : Type} {k j : ℤ} (v : α) (m : List (ℤ × α))
    (h : j ≠ k) : dlookup j (dinsert k v m) = dlookup j m := by
  have hkj : k ≠ j := fun hc => h hc.symm
  simp only [dinsert, dlookup, if_neg hkj]
  rw [dlookup_derase, if_neg h]

theorem mem_dinsert {α : Type} {k : ℤ} {v : α} {m : List (ℤ × α)} {e : ℤ × α} :
    e ∈ dinsert k v m ↔ e = (k, v) ∨ (e ∈ m ∧ e.1 ≠ k) := by
  simp [dinsert, mem_derase]

/-! ### Delivery-loop lemmas -/

theorem deliverLoopF_succ_some (n : ℕ) (b : ℤ) (buf : List (ℤ × String))
    (acc : List String) (v : String) (h : dlookup b buf = some v) :
    deliverLoopF (n + 1) b buf acc = deliverLoopF n (b + 1) (derase b buf) (acc ++ [v]) := by
  simp [deliverLoopF, h]

theorem deliverLoopF_none (fuel : ℕ) (b : ℤ) (buf : List (ℤ × String))
    (acc : List String) (h : dlookup b buf = none) :
    deliverLoopF fuel b buf acc = (b, buf, acc) := by
  cases fuel with
  | zero => rfl
  | succ n => simp [deliverLoopF, h]

theorem deliverLoopF_base_le (fuel : ℕ) (b : ℤ) (buf : List (ℤ × String))
    (acc : List String) : b ≤ (deliverLoopF fuel b buf acc).1 := by
  induction fuel generalizing b buf acc with
  | zero => simp [deliverLoopF]
  | succ n ih =>
    cases h : dlookup b buf with
    | none => simp [deliverLoopF_none _ _ _ _ h]
    | some v =>
      rw [deliverLoopF_succ_some n b buf acc v h]
      calc b ≤ b + 1 := by omega
        _ ≤ _ := ih (b + 1) (derase b buf) (acc ++ [v])

theorem deliverLoopF_lookup_none (fuel : ℕ) (b : ℤ) (buf : List (ℤ × String))
    (acc : List String) (hf : buf.length ≤ fuel) :
    dlookup (deliverLoopF fuel b buf acc).1 (deliverLoopF fuel b buf acc).2.1 = none := by
  induction fuel generalizing b buf acc with
  | zero =>
    have hbuf : buf = [] := List.length_eq_zero.mp (Nat.le_zero.mp hf)
    subst hbuf
    simp [deliverLoopF, dlookup]
  | succ n ih =>
    cases h : dlookup b buf with
    | none =>
      rw [deliverLoopF_none _ _ _ _ h]
      exact h
    | some v =>
      rw [deliverLoopF_succ_some n b buf acc v h]
      exact ih (b + 1) (derase b buf) (acc ++ [v]) (by have := derase_length_lt h; omega)

theorem deliverLoopF_mem_sub (fuel : ℕ) (b : ℤ) (buf : List (ℤ × String))
    (acc : List String) {e : ℤ × String}
    (he : e ∈ (deliverLoopF fuel b buf acc).2.1) :
    e ∈ buf ∧ (e.1 < b ∨ (deliverLoopF fuel b buf acc).1 ≤ e.1) := by
  induction fuel generalizing b buf acc with
  | zero =>
    simp only [deliverLoopF] at he ⊢
    exact ⟨he, by omega⟩
  | succ n ih =>
    cases h : dlookup b buf with
    | none =>
      rw [deliverLoopF_none _ _ _ _ h] at he ⊢
      exact ⟨he, by omega⟩
    | some v =>
      rw [deliverLoopF_succ_some n b buf acc v h] at he ⊢
      obtain ⟨h1, h2⟩ := ih (b + 1) (derase b buf) (acc ++ [v]) he
      obtain ⟨h3, h4⟩ := mem_derase.mp h1
      refine ⟨h3, ?_⟩
      rcases h2 with h2 | h2
      · left
        omega
      · right
        exact h2

theorem deliverLoopF_mem_or (fuel : ℕ) (b : ℤ) (buf : List (ℤ × String))
    (acc : List String) {e : ℤ × String} (he : e ∈ buf) :
    e ∈ (deliverLoopF fuel b buf acc).2.1 ∨
      (b ≤ e.1 ∧ e.1 < (deliverLoopF fuel b buf acc).1) := by
  induction fuel generalizing b buf acc with
  | zero => exact Or.inl he
  | succ n ih =>
    cases h : dlookup b buf with
    | none =>
      rw [deliverLoopF_none _ _ _ _ h]
      exact Or.inl he
    | some v =>
      rw [deliverLoopF_succ_some n b buf acc v h]
      by_cases hk : e.1 = b
      · right
        refine ⟨le_of_eq hk.symm, ?_⟩
        have := deliverLoopF_base_le n (b + 1) (derase b buf) (acc ++ [v])
        omega
      · rcases ih (b + 1) (derase b buf) (acc ++ [v]) (mem_derase.mpr ⟨he, hk⟩) with
          h1 | h1
        · exact Or.inl h1
        · right
          exact ⟨by omega, h1.2⟩

theorem deliverLoopF_range (fuel : ℕ) (b : ℤ) (buf : List (ℤ × String))
    (acc : List String) {m : ℤ} (h1 : b ≤ m)
    (h2 : m < (deliverLoopF fuel b buf acc).1) : dlookup m buf ≠ none := by
  induction fuel generalizing b buf acc with
  | zero =>
    simp only [deliverLoopF] at h2
    omega
  | succ n ih =>
    cases h : dlookup b buf with
    | none =>
      rw [deliverLoopF_none _ _ _ _ h] at h2
      omega
    | some v =>
      rw [deliverLoopF_succ_some n b buf acc v h] at h2
      by_cases hm : m = b
      · rw [hm, h]
        simp
      · have hr := ih (b + 1) (derase b buf) (acc ++ [v]) (by omega) h2
        rw [dlookup_derase, if_neg hm] at hr
        exact hr

theorem deliverLoopF_app (f : ℕ → String) (fuel : ℕ) (b : ℤ)
    (buf : List (ℤ × String)) (acc : List String) (hb : 0 ≤ b)
    (hacc : acc = (List.range b.toNat).map f)
    (hbuf : ∀ e ∈ buf, 0 ≤ e.1 ∧ e.2 = f e.1.toNat) :
    0 ≤ (deliverLoopF fuel b buf acc).1 ∧
      (deliverLoopF fuel b buf acc).2.2 =
        (List.range (deliverLoopF fuel b buf acc).1.toNat).map f := by
  induction fuel generalizing b buf acc with
  | zero => exact ⟨hb, hacc⟩
  | succ n ih =>
    cases h : dlookup b buf with
    | none =>
      rw [deliverLoopF_none _ _ _ _ h]
      exact ⟨hb, hacc⟩
    | some v =>
      rw [deliverLoopF_succ_some n b buf acc v h]
      have hv : v = f b.toNat := (hbuf _ (dlookup_some_mem h)).2
      refine ih (b + 1) (derase b buf) (acc ++ [v]) (by omega) ?_ ?_
      · have hbn : (b + 1).toNat = b.toNat + 1 := by omega
        rw [hbn, List.range_succ, List.map_append, ← hacc, hv]
        simp
      · intro e hmem
        exact hbuf e (mem_derase.mp hmem).1

theorem deliverLoop_base_le (b : ℤ) (buf : List (ℤ × String)) (acc : List String) :
    b ≤ (deliverLoop b buf acc).1 :=
  deliverLoopF_base_le _ _ _ _

theorem deliverLoop_lookup_none (b : ℤ) (buf : List (ℤ × String)) (acc : List String) :
    dlookup (deliverLoop b buf acc).1 (deliverLoop b buf acc).2.1 = none :=
  deliverLoopF_lookup_none _ _ _ _ (le_refl _)

theorem deliverLoop_mem_sub (b : ℤ) (buf : List (ℤ × String)) (acc : List String)
    {e : ℤ × String} (he : e ∈ (deliverLoop b buf acc).2.1) :
    e ∈ buf ∧ (e.1 < b ∨ (deliverLoop b buf acc).1 ≤ e.1) :=
  deliverLoopF_mem_sub _ _ _ _ he

theorem deliverLoop_mem_or (b : ℤ) (buf : List (ℤ × String)) (acc : List String)
    {e : ℤ × String} (he : e ∈ buf) :
    e ∈ (deliverLoop b buf acc).2.1 ∨ (b ≤ e.1 ∧ e.1 < (deliverLoop b buf acc).1) :=
  deliverLoopF_mem_or _ _ _ _ he

theorem deliverLoop_range (b : ℤ) (buf : List (ℤ × String)) (acc : List String)
    {m : ℤ} (h1 : b ≤ m) (h2 : m < (deliverLoop b buf acc).1) :
    dlookup m buf ≠ none :=
  deliverLoopF_range _ _ _ _ h1 h2

theorem deliverLoop_app (f : ℕ → String) (b : ℤ) (buf : List (ℤ × String))
    (acc : List String) (hb : 0 ≤ b) (hacc : acc = (List.range b.toNat).map f)
    (hbuf : ∀ e ∈ buf, 0 ≤ e.1 ∧ e.2 = f e.1.toNat) :
    0 ≤ (deliverLoop b buf acc).1 ∧
      (deliverLoop b buf acc).2.2 = (List.range (deliverLoop b buf acc).1.toNat).map f :=
  deliverLoopF_app f _ _ _ _ hb hacc hbuf

/-! ### Receiver invariants -/

theorem adaptStep_rcvBase (s : RecvState) : (adaptStep s).rcvBase = s.rcvBase := by
  unfold adaptStep
  split
  · split
    · rfl
    · split
      · rfl
      · rfl
  · rfl

theorem adaptStep_rcvBuffer (s : RecvState) : (adaptStep s).rcvBuffer = s.rcvBuffer := by
  unfold adaptStep
  split
  · split
    · rfl
    · split
      · rfl
      · rfl
  · rfl

theorem adaptStep_appData (s : RecvState) : (adaptStep s).appData = s.appData := by
  unfold adaptStep
  split
  · split
    · rfl
    · split
      · rfl
      · rfl
  · rfl

theorem adaptStep_origMss (s : RecvState) : (adaptStep s).origMss = s.origMss := by
  unfold adaptStep
  split
  · split
    · rfl
    · split
      · rfl
      · rfl
  · rfl

theorem adaptStep_dynMss (s : RecvState) : (adaptStep s).dynMss = s.dynMss := by
  unfold adaptStep
  split
  · split
    · rfl
    · split
      · rfl
      · rfl
  · rfl

theorem adaptStep_mss_lb (s : RecvState) (h1 : 20 ≤ s.mss) (h2 : 20 ≤ s.origMss) :
    20 ≤ (adaptStep s).mss := by
  unfold adaptStep
  split
  · split
    · simp only
      omega
    · split
      · simp only
        exact le_min h2 (by omega)
      · exact h1
  · exact h1

/-- On a DATA record the transfer loop dispatches to `handleData`. -/
theorem handleClientStep_data (s : RecvState) (m : SrvMsg)
    (hm : m.mtype = some "DATA") :
    handleClientStep s m = handleData s m.seq m.payload := by
  unfold handleClientStep
  rw [hm]
  simp

/-- A DATA record never ends the transfer loop. -/
theorem handleData_cont (s : RecvState) (sq : SeqField) (pl : PayloadField) :
    (handleData s sq pl).2.2 = true := by
  unfold handleData
  cases sq with
  | absent => rfl
  | notInt => rfl
  | val q =>
    simp only
    split
    · rfl
    · cases payloadOf pl with
      | none => rfl
      | some p =>
        simp only
        split
        · rfl
        · rfl

theorem handleClientStep_data_cont (s : RecvState) (m : SrvMsg)
    (hm : m.mtype = some "DATA") : (handleClientStep s m).2.2 = true := by
  rw [handleClientStep_data s m hm]
  exact handleData_cont s m.seq m.payload

theorem recvInv_init (segs : ℕ → String) (mss0 : ℤ) (dyn : Bool) (hm : 20 ≤ mss0) :
    RecvInv segs [] (initRecv mss0 dyn) := by
  refine ⟨by simp [initRecv], hm, hm, by simp [initRecv], by simp [initRecv, dlookup],
    ?_, ?_, ?_⟩
  · intro e he
    simp [initRecv] at he
  · intro n hn
    simp at hn
  · intro j hj
    simp [initRecv] at hj
    omega

theorem recvInv_step (segs : ℕ → String) (done : List ℕ) (s : RecvState) (n : ℕ)
    (h : RecvInv segs done s) (hsz : ((segs n).utf8ByteSize : ℤ) ≤ 20) :
    RecvInv segs (n :: done) (handleClientStep s (dataMsg segs n)).1 := by
  obtain ⟨hb0, hmss, horig, happ, hnone, hbuf, hdone, hdel⟩ := h
  rw [handleClientStep_data s (dataMsg segs n) rfl]
  show RecvInv segs (n :: done) (handleData s (.val (n : ℤ)) (.str (segs n))).1
  simp only [handleData, payloadOf]
  by_cases hlt : (n : ℤ) < s.rcvBase
  · simp only [if_pos hlt]
    refine ⟨hb0, hmss, horig, happ, hnone, ?_, ?_, ?_⟩
    · intro e he
      obtain ⟨h1, m2, h2, h3, h4⟩ := hbuf e he
      exact ⟨h1, m2, List.mem_cons_of_mem _ h2, h3, h4⟩
    · intro j hj
      rcases List.mem_cons.mp hj with hj | hj
      · subst hj
        exact Or.inl hlt
      · exact hdone j hj
    · intro j hj
      exact List.mem_cons_of_mem _ (hdel j hj)
  · simp only [if_neg hlt]
    rw [if_neg (by omega : ¬ ((segs n).utf8ByteSize : ℤ) > s.mss)]
    simp only
    have hge : s.rcvBase ≤ (n : ℤ) := by omega
    set buf1 := dinsert (n : ℤ) (segs n) s.rcvBuffer with hbuf1
    have hdel1 : deliverStep s (n : ℤ) (segs n) =
        { s with rcvBase := (deliverLoop s.rcvBase buf1 s.appData).1,
                 rcvBuffer := (deliverLoop s.rcvBase buf1 s.appData).2.1,
                 appData := (deliverLoop s.rcvBase buf1 s.appData).2.2 } := by
      unfold deliverStep
      rw [if_pos hge]
    have hbuf1mem : ∀ e ∈ buf1, 0 ≤ e.1 ∧ e.2 = segs e.1.toNat := by
      intro e he
      rcases mem_dinsert.mp he with he | ⟨he, hne⟩
      · subst he
        simp
      · obtain ⟨h1, m2, _, h3, h4⟩ := hbuf e he
        refine ⟨by omega, ?_⟩
        rw [h4, ← h3]
        simp
    have hble : s.rcvBase ≤ (deliverLoop s.rcvBase buf1 s.appData).1 :=
      deliverLoop_base_le _ _ _
    have hrapp := deliverLoop_app segs s.rcvBase buf1 s.appData hb0 happ hbuf1mem
    have hrnone := deliverLoop_lookup_none s.rcvBase buf1 s.appData
    constructor
    · rw [adaptStep_rcvBase, hdel1]
      exact hrapp.1
    constructor
    · apply adaptStep_mss_lb
      · rw [hdel1]
        exact hmss
      · rw [hdel1]
        exact horig
    constructor
    · rw [adaptStep_origMss, hdel1]
      exact horig
    constructor
    · rw [adaptStep_appData, adaptStep_rcvBase, hdel1]
      exact hrapp.2
    constructor
    · rw [adaptStep_rcvBase, adaptStep_rcvBuffer, hdel1]
      exact hrnone
    constructor
    · rw [adaptStep_rcvBase, adaptStep_rcvBuffer, hdel1]
      simp only
      intro e he
      obtain ⟨h1, h2⟩ := deliverLoop_mem_sub s.rcvBase buf1 s.appData he
      rcases mem_dinsert.mp h1 with h3 | ⟨h3, hne⟩
      · refine ⟨?_, n, List.mem_cons_self n done, by rw [h3], by rw [h3]⟩
        rcases h2 with h2 | h2
        · rw [h3] at h2
          simp only at h2
          omega
        · exact h2
      · obtain ⟨h4, m2, h5, h6, h7⟩ := hbuf e h3
        refine ⟨?_, m2, List.mem_cons_of_mem _ h5, h6, h7⟩
        rcases h2 with h2 | h2
        · omega
        · exact h2
    constructor
    · rw [adaptStep_rcvBase, adaptStep_rcvBuffer, hdel1]
      simp only
      intro j hj
      rcases List.mem_cons.mp hj with hj | hj
      · subst hj
        have hin : ((j : ℤ), segs j) ∈ buf1 := by
          rw [hbuf1]
          exact mem_dinsert.mpr (Or.inl rfl)
        rcases deliverLoop_mem_or s.rcvBase buf1 s.appData hin with h1 | h1
        · exact Or.inr (dlookup_ne_none_of_mem h1)
        · exact Or.inl h1.2
      · rcases hdone j hj with h1 | h1
        · exact Or.inl (by omega)
        · have hjs : ∃ v, dlookup (j : ℤ) s.rcvBuffer = some v := by
            cases hv : dlookup (j : ℤ) s.rcvBuffer with
            | none => exact absurd hv h1
            | some v => exact ⟨v, rfl⟩
          obtain ⟨v, hv⟩ := hjs
          have hmem : ((j : ℤ), v) ∈ s.rcvBuffer := dlookup_some_mem hv
          by_cases hjn : (j : ℤ) = (n : ℤ)
          · have hin : ((n : ℤ), segs n) ∈ buf1 := mem_dinsert.mpr (Or.inl rfl)
            rcases deliverLoop_mem_or s.rcvBase buf1 s.appData hin with
              h2 | h2
            · exact Or.inr (by rw [hjn]; exact dlookup_ne_none_of_mem h2)
            · exact Or.inl (by omega)
          · have hin : ((j : ℤ), v) ∈ buf1 := mem_dinsert.mpr (Or.inr ⟨hmem, hjn⟩)
            rcases deliverLoop_mem_or s.rcvBase buf1 s.appData hin with
              h2 | h2
            · exact Or.inr (dlookup_ne_none_of_mem h2)
            · exact Or.inl h2.2
    · rw [adaptStep_rcvBase, hdel1]
      simp only
      intro j hj
      by_cases hjb : (j : ℤ) < s.rcvBase
      · exact List.mem_cons_of_mem _ (hdel j hjb)
      · have hlk := deliverLoop_range s.rcvBase buf1 s.appData (by omega) hj
        have hjs : ∃ v, dlookup (j : ℤ) buf1 = some v := by
          cases hv : dlookup (j : ℤ) buf1 with
          | none => exact absurd hv hlk
          | some v => exact ⟨v, rfl⟩
        obtain ⟨v, hv⟩ := hjs
        rcases mem_dinsert.mp (dlookup_some_mem hv) with h1 | ⟨h1, hne⟩
        · have : (j : ℤ) = (n : ℤ) := congrArg Prod.fst h1
          have : j = n := by omega
          subst this
          exact List.mem_cons_self j done
        · obtain ⟨_, m2, h5, h6, _⟩ := hbuf _ h1
          have : j = m2 := by
            simp only at h6
            omega
          subst this
          exact List.mem_cons_of_mem _ h5

theorem recvInv_run (segs : ℕ → String) (arrivals : List ℕ) (done : List ℕ)
    (s : RecvState) (h : RecvInv segs done s)
    (hsz : ∀ n ∈ arrivals, ((segs n).utf8ByteSize : ℤ) ≤ 20) :
    RecvInv segs (arrivals.reverse ++ done)
      (runServer s (arrivals.map (dataMsg segs))).1 := by
  induction arrivals generalizing done s with
  | nil => simpa [runServer] using h
  | cons a rest ih =>
    simp only [List.map_cons, runServer]
    rw [if_pos (handleClientStep_data_cont s (dataMsg segs a) rfl)]
    simp only
    have hstep := recvInv_step segs done s a h (hsz a (List.mem_cons_self a rest))
    have := ih (a :: done) _ hstep (fun n hn => hsz n (List.mem_cons_of_mem _ hn))
    simpa using this

/-! ### Receiver monotonicity and emitted acknowledgments -/

theorem deliverStep_rcvBase_le (s : RecvState) (q : ℤ) (p : String) :
    s.rcvBase ≤ (deliverStep s q p).rcvBase := by
  unfold deliverStep
  split
  · exact deliverLoop_base_le _ _ _
  · exact le_refl _

theorem handleData_rcvBase_le (s : RecvState) (sq : SeqField) (pl : PayloadField) :
    s.rcvBase ≤ (handleData s sq pl).1.rcvBase := by
  unfold handleData
  cases sq with
  | absent => exact le_refl _
  | notInt => exact le_refl _
  | val q =>
    simp only
    split
    · exact le_refl _
    · cases payloadOf pl with
      | none => exact le_refl _
      | some p =>
        simp only
        split
        · exact le_refl _
        · simp only
          rw [adaptStep_rcvBase]
          exact deliverStep_rcvBase_le s q p

theorem handleClientStep_rcvBase_le (s : RecvState) (m : SrvMsg) :
    s.rcvBase ≤ (handleClientStep s m).1.rcvBase := by
  unfold handleClientStep
  split
  · exact le_refl _
  · split
    · exact le_refl _
    · exact handleData_rcvBase_le s m.seq m.payload

/-- Every output of one loop turn is either the acknowledgment of the
turn's final state or the FIN acknowledgment. -/
theorem handleClientStep_out (s : RecvState) (m : SrvMsg) :
    (handleClientStep s m).2.1 = [] ∨
    (handleClientStep s m).2.1 = [sendAck (handleClientStep s m).1] ∨
    (handleClientStep s m).2.1 = [SrvOut.finAck] := by
  unfold handleClientStep
  split
  · exact Or.inr (Or.inr rfl)
  · split
    · exact Or.inl rfl
    · unfold handleData
      cases m.seq with
      | absent => exact Or.inr (Or.inl rfl)
      | notInt => exact Or.inr (Or.inl rfl)
      | val q =>
        simp only
        split
        · exact Or.inr (Or.inl rfl)
        · cases payloadOf m.payload with
          | none => exact Or.inr (Or.inl rfl)
          | some p =>
            simp only
            split
            · exact Or.inr (Or.inl rfl)
            · exact Or.inr (Or.inl rfl)

theorem ackValues_append (l1 l2 : List SrvOut) :
    ackValues (l1 ++ l2) = ackValues l1 ++ ackValues l2 :=
  List.filterMap_append _ _ _

theorem ackValues_sendAck (t : RecvState) :
    ackValues [sendAck t] = [t.rcvBase - 1] := by
  simp [ackValues, sendAck]

theorem runServer_acks_ge (s : RecvState) (msgs : List SrvMsg) :
    ∀ a ∈ ackValues (runServer s msgs).2, s.rcvBase - 1 ≤ a := by
  induction msgs generalizing s with
  | nil =>
    intro a ha
    simp [runServer, ackValues] at ha
  | cons m rest ih =>
    intro a ha
    have hmono := handleClientStep_rcvBase_le s m
    simp only [runServer] at ha
    split at ha
    · rw [ackValues_append] at ha
      rcases List.mem_append.mp ha with h1 | h1
      · rcases handleClientStep_out s m with ho | ho | ho <;> rw [ho] at h1
        · simp [ackValues] at h1
        · rw [ackValues_sendAck] at h1
          rcases List.mem_singleton.mp h1 with rfl
          omega
        · simp [ackValues] at h1
      · have := ih (handleClientStep s m).1 a h1
        omega
    · rcases handleClientStep_out s m with ho | ho | ho <;> rw [ho] at ha
      · simp [ackValues] at ha
      · rw [ackValues_sendAck] at ha
        rcases List.mem_singleton.mp ha with rfl
        omega
      · simp [ackValues] at ha

theorem runServer_acks_chain (s : RecvState) (msgs : List SrvMsg) :
    List.Chain' (· ≤ ·) (ackValues (runServer s msgs).2) := by
  induction msgs generalizing s with
  | nil => simp [runServer, ackValues]
  | cons m rest ih =>
    simp only [runServer]
    split
    · rw [ackValues_append]
      rw [List.chain'_append]
      refine ⟨?_, ih (handleClientStep s m).1, ?_⟩
      · rcases handleClientStep_out s m with ho | ho | ho <;> rw [ho]
        · simp [ackValues]
        · rw [ackValues_sendAck]
          exact List.chain'_singleton _
        · simp [ackValues]
      · intro x hx y hy
        have hxm : x ∈ ackValues (handleClientStep s m).2.1 :=
          List.mem_of_mem_getLast? hx
        have hym : y ∈ ackValues (runServer (handleClientStep s m).1 rest).2 :=
          List.mem_of_mem_head? hy
        have hyge := runServer_acks_ge (handleClientStep s m).1 rest y hym
        rcases handleClientStep_out s m with ho | ho | ho <;> rw [ho] at hxm
        · simp [ackValues] at hxm
        · rw [ackValues_sendAck] at hxm
          rcases List.mem_singleton.mp hxm with rfl
          omega
        · simp [ackValues] at hxm
    · rcases handleClientStep_out s m with ho | ho | ho <;> rw [ho]
      · simp [ackValues]
      · rw [ackValues_sendAck]
        exact List.chain'_singleton _
      · simp [ackValues]

/-! ### Sender lemmas -/

theorem sendWindowF_base {α : Type} (data : List α) (W : ℤ) (now : ℚ) (fuel : ℕ)
    (s : SendState α) : (sendWindowF data W now fuel s).1.base = s.base := by
  induction fuel generalizing s with
  | zero => rfl
  | succ n ih =>
    simp only [sendWindowF]
    split
    · exact ih _
    · rfl

theorem sendWindowF_nextSeq_le {α : Type} (data : List α) (W : ℤ) (now : ℚ) (fuel : ℕ)
    (s : SendState α) : s.nextSeq ≤ (sendWindowF data W now fuel s).1.nextSeq := by
  induction fuel generalizing s with
  | zero => exact le_refl _
  | succ n ih =>
    simp only [sendWindowF]
    split
    · calc s.nextSeq ≤ s.nextSeq + 1 := by omega
        _ ≤ _ := ih _
    · exact le_refl _

theorem sendWindowF_inv {α : Type} (data : List α) (W : ℤ) (now : ℚ) (fuel : ℕ)
    (s : SendState α) (h1 : s.base ≤ s.nextSeq) (h2 : s.nextSeq ≤ s.base + W) :
    windowInv W (sendWindowF data W now fuel s).1 := by
  induction fuel generalizing s with
  | zero => exact ⟨h1, h2⟩
  | succ n ih =>
    simp only [sendWindowF]
    split
    · rename_i hc
      exact ih _ (show s.base ≤ s.nextSeq + 1 by omega)
        (show s.nextSeq + 1 ≤ s.base + W by omega)
    · exact ⟨h1, h2⟩

theorem sendWindowF_buffer_persist {α : Type} (data : List α) (W : ℤ) (now : ℚ)
    (fuel : ℕ) (s : SendState α) {q : ℤ} {v : List α} (hq : q < s.nextSeq)
    (hv : dlookup q s.buffer = some v) :
    dlookup q (sendWindowF data W now fuel s).1.buffer = some v := by
  induction fuel generalizing s with
  | zero => exact hv
  | succ n ih =>
    simp only [sendWindowF]
    split
    · refine ih _ (by omega : q < s.nextSeq + 1) ?_
      simp only
      rw [dlookup_dinsert_ne _ _ (by omega : q ≠ s.nextSeq)]
      exact hv
    · exact hv

theorem processAckMsg_buffer {α : Type} (isDyn : Bool) (now : ℚ) (s : SendState α)
    (msg : CliMsg) : (processAckMsg isDyn now s msg).buffer = s.buffer := by
  unfold processAckMsg
  split
  · cases msg.ack with
    | none => rfl
    | some a =>
      simp only
      split
      · cases isDyn with
        | false => rfl
        | true =>
          cases msg.msize with
          | none => rfl
          | some z => rfl
      · rfl
  · rfl

theorem processAckMsg_nextSeq {α : Type} (isDyn : Bool) (now : ℚ) (s : SendState α)
    (msg : CliMsg) : (processAckMsg isDyn now s msg).nextSeq = s.nextSeq := by
  unfold processAckMsg
  split
  · cases msg.ack with
    | none => rfl
    | some a =>
      simp only
      split
      · cases isDyn with
        | false => rfl
        | true =>
          cases msg.msize with
          | none => rfl
          | some z => rfl
      · rfl
  · rfl

theorem processAckMsg_base {α : Type} (isDyn : Bool) (now : ℚ) (s : SendState α)
    (msg : CliMsg) :
    (processAckMsg isDyn now s msg).base = s.base ∨
    ∃ a, msg.ack = some a ∧ s.base ≤ a ∧ (processAckMsg isDyn now s msg).base = a + 1 := by
  unfold processAckMsg
  split
  · cases ha : msg.ack with
    | none => exact Or.inl rfl
    | some a =>
      simp only
      split
      · rename_i hge
        refine Or.inr ⟨a, rfl, hge, ?_⟩
        cases isDyn with
        | false => rfl
        | true =>
          cases msg.msize with
          | none => rfl
          | some z => rfl
      · exact Or.inl rfl
  · exact Or.inl rfl

theorem processAck_buffer {α : Type} (isDyn : Bool) (now : ℚ) (s : SendState α)
    (m : Option CliMsg) : (processAck isDyn now s m).buffer = s.buffer := by
  cases m with
  | none => rfl
  | some msg => exact processAckMsg_buffer isDyn now s msg

theorem processAck_nextSeq {α : Type} (isDyn : Bool) (now : ℚ) (s : SendState α)
    (m : Option CliMsg) : (processAck isDyn now s m).nextSeq = s.nextSeq := by
  cases m with
  | none => rfl
  | some msg => exact processAckMsg_nextSeq isDyn now s msg

theorem processAck_inv {α : Type} (W : ℤ) (isDyn : Bool) (now : ℚ) (s : SendState α)
    (m : Option CliMsg) (hInv : windowInv W s)
    (hAck : ∀ a : ℤ, m.bind CliMsg.ack = some a → a < s.nextSeq) :
    windowInv W (processAck isDyn now s m) := by
  cases m with
  | none => exact hInv
  | some msg =>
    show windowInv W (processAckMsg isDyn now s msg)
    have hnext := processAckMsg_nextSeq isDyn now s msg
    rcases processAckMsg_base isDyn now s msg with hb | ⟨a, ha, hge, hb⟩
    · exact ⟨by rw [hb, hnext]; exact hInv.1, by rw [hb, hnext]; exact hInv.2⟩
    · have hlt : a < s.nextSeq := hAck a (by simpa using ha)
      obtain ⟨hi1, hi2⟩ := hInv
      exact ⟨by rw [hb, hnext]; omega, by rw [hb, hnext]; omega⟩

theorem processAckMsg_fields {α : Type} (isDyn : Bool) (now : ℚ) (s : SendState α)
    (msg : CliMsg) (a : ℤ) (hm : msg.mtype = some "ACK") (ha : msg.ack = some a)
    (hge : s.base ≤ a) :
    (processAckMsg isDyn now s msg).base = a + 1 ∧
    (processAckMsg isDyn now s msg).buffer = s.buffer ∧
    (processAckMsg isDyn now s msg).nextSeq = s.nextSeq := by
  unfold processAckMsg
  rw [hm, if_pos rfl, ha]
  simp only
  rw [if_pos (show a ≥ s.base from hge)]
  cases isDyn with
  | false => exact ⟨rfl, rfl, rfl⟩
  | true =>
    cases msg.msize with
    | none => exact ⟨rfl, rfl, rfl⟩
    | some z => exact ⟨rfl, rfl, rfl⟩

theorem checkTimeout_fields {α : Type} (tmo now : ℚ) (s : SendState α) :
    (checkTimeout tmo now s).1.base = s.base ∧
    (checkTimeout tmo now s).1.nextSeq = s.nextSeq ∧
    (checkTimeout tmo now s).1.buffer = s.buffer := by
  unfold checkTimeout
  split
  · exact ⟨rfl, rfl, rfl⟩
  · split
    · exact ⟨rfl, rfl, rfl⟩
    · exact ⟨rfl, rfl, rfl⟩

theorem filterMap_lookup_fst {α : Type} (b : List (ℤ × List α)) (l : List ℤ)
    (h : ∀ q ∈ l, (dlookup q b).isSome) :
    (l.filterMap (fun q => (dlookup q b).map (fun p => (q, p)))).map Prod.fst = l := by
  induction l with
  | nil => rfl
  | cons q rest ih =>
    simp only [List.filterMap_cons]
    cases hv : dlookup q b with
    | none =>
      have := h q (List.mem_cons_self q rest)
      rw [hv] at this
      simp at this
    | some v =>
      simp only [Option.map_some']
      rw [List.map_cons]
      rw [ih (fun x hx => h x (List.mem_cons_of_mem _ hx))]

theorem mem_filterMap_lookup {α : Type} (b : List (ℤ × List α)) (l : List ℤ)
    {e : ℤ × List α}
    (he : e ∈ l.filterMap (fun q => (dlookup q b).map (fun p => (q, p)))) :
    dlookup e.1 b = some e.2 := by
  rw [List.mem_filterMap] at he
  obtain ⟨q, _, hmap⟩ := he
  cases hv : dlookup q b with
  | none =>
    rw [hv] at hmap
    simp at hmap
  | some v =>
    rw [hv] at hmap
    simp only [Option.map_some', Option.some.injEq] at hmap
    rw [← hmap]
    exact hv

theorem outSeqs_nodup {α : Type} (s : SendState α) : (outSeqs s).Nodup := by
  unfold outSeqs
  have hinj : Function.Injective (fun i : ℕ => s.base + (i : ℤ)) := by
    intro i j hij
    have h2 : s.base + (i : ℤ) = s.base + (j : ℤ) := hij
    omega
  exact List.Nodup.map hinj (List.nodup_range _)

theorem derase_derase {α : Type} (k : ℤ) (m : List (ℤ × α)) :
    derase k (derase k m) = derase k m := by
  induction m with
  | nil => rfl
  | cons e rest ih =>
    by_cases he : e.1 = k
    · simp only [derase, if_pos he]
      exact ih
    · simp only [derase, if_neg he]
      rw [ih]

theorem derase_dinsert_self {α : Type} (k : ℤ) (v : α) (m : List (ℤ × α)) :
    derase k (dinsert k v m) = derase k m := by
  simp only [dinsert, derase, if_pos rfl]
  exact derase_derase k m

theorem deliverLoop_none (b : ℤ) (buf : List (ℤ × String)) (acc : List String)
    (h : dlookup b buf = none) : deliverLoop b buf acc = (b, buf, acc) :=
  deliverLoopF_none _ _ _ _ h

theorem deliverLoop_insert_eq (b : ℤ) (p : String) (buf : List (ℤ × String))
    (acc : List String) (hnext : dlookup (b + 1) buf = none) :
    deliverLoop b (dinsert b p buf) acc = (b + 1, derase b buf, acc ++ [p]) := by
  unfold deliverLoop
  have hlen : (dinsert b p buf).length = (derase b buf).length + 1 := by
    simp [dinsert]
  rw [hlen]
  rw [deliverLoopF_succ_some _ _ _ _ p (dlookup_dinsert_self b p buf)]
  rw [derase_dinsert_self]
  apply deliverLoopF_none
  rw [dlookup_derase, if_neg (by omega : ¬ b + 1 = b)]
  exact hnext

/-! ### The claims -/

/-- C5 (counterexample): the claim asserts that for both peers' decoders an
empty read is distinct from a parse failure and a parse failure yields a
MALFORMED record with a reason. The client's decoder refutes it: decoding a
closed connection and decoding a syntactically invalid record give the
very same `none` result, so no MALFORMED record is ever produced there. -/
theorem claim_C5_counterexample :
    clientRecvMsg Wire.closed = clientRecvMsg Wire.invalid ∧
    clientRecvMsg Wire.invalid = none :=
  ⟨rfl, rfl⟩

/-- C5 (amended): the server's decoder yields `none` on an empty read and
a distinct ERR record carrying reason "bad_json" on a syntactically
invalid record; the client's decoder yields the same `none` in both
cases, producing no MALFORMED record. -/
theorem claim_C5 :
    serverRecvMsg Wire.closed = none ∧
    serverRecvMsg Wire.invalid =
      some ⟨some "ERR", SeqField.absent, PayloadField.absent, some "bad_json"⟩ ∧
    serverRecvMsg Wire.invalid ≠ serverRecvMsg Wire.closed ∧
    clientRecvMsg Wire.closed = none ∧
    clientRecvMsg Wire.invalid = none :=
  ⟨rfl, rfl, by simp [serverRecvMsg], rfl, rfl⟩

/-- C6: no turn of the receiver's transfer loop ever decreases `rcv_base`,
and across any session (any sequence of decoded records, from any state)
the cumulative-acknowledgment values the receiver emits — each
`rcv_base - 1`, with `-1` as the "nothing yet" sentinel — form a
non-decreasing sequence. -/
theorem claim_C6 :
    (∀ (s : RecvState) (m : SrvMsg), s.rcvBase ≤ (handleClientStep s m).1.rcvBase) ∧
    (∀ (s : RecvState) (msgs : List SrvMsg),
      List.Chain' (· ≤ ·) (ackValues (runServer s msgs).2)) :=
  ⟨handleClientStep_rcvBase_le, runServer_acks_chain⟩

/-- C7: a DATA record whose integer seq is below `rcv_base` leaves the
receiver state completely unchanged (in particular `delivered`,
`rcv_base` and the reorder buffer) and still produces exactly one
acknowledgment carrying `ack = rcv_base - 1`. -/
theorem claim_C7 (s : RecvState) (m : SrvMsg) (q : ℤ)
    (hm : m.mtype = some "DATA") (hq : m.seq = SeqField.val q)
    (hlt : q < s.rcvBase) :
    handleClientStep s m =
      (s, [SrvOut.cumAck (s.rcvBase - 1) (if s.dynMss then some s.mss else none)],
        true) := by
  rw [handleClientStep_data s m hm, hq]
  simp only [handleData]
  rw [if_pos hlt]
  rfl

theorem claim_C7_witness :
    handleClientStep ⟨1, [], ["x"], 400, 400, false⟩
        ⟨some "DATA", SeqField.val 0, PayloadField.str "y", none⟩ =
      (⟨1, [], ["x"], 400, 400, false⟩, [SrvOut.cumAck 0 none], true) := by
  have h := claim_C7 ⟨1, [], ["x"], 400, 400, false⟩
    ⟨some "DATA", SeqField.val 0, PayloadField.str "y", none⟩ 0 rfl rfl (by decide)
  simpa using h

/-- C9: in the receiver's transfer loop, a decoded record whose type is
neither DATA nor FIN — including the ERR record the decoder produces for
a syntactically invalid line — is dropped with no reply and no state
change at all: no acknowledgment, no change to `rcv_base`, the reorder
buffer, `delivered` or `mss`. -/
theorem claim_C9 (s : RecvState) (m : SrvMsg)
    (h1 : m.mtype ≠ some "DATA") (h2 : m.mtype ≠ some "FIN") :
    handleClientStep s m = (s, [], true) ∧
    (∀ m2 : SrvMsg, serverRecvMsg Wire.invalid = some m2 →
      handleClientStep s m2 = (s, [], true)) := by
  constructor
  · unfold handleClientStep
    rw [if_neg h2, if_pos h1]
  · intro m2 hm2
    have hm2e : m2 = ⟨some "ERR", SeqField.absent, PayloadField.absent, some "bad_json"⟩ := by
      simp only [serverRecvMsg] at hm2
      exact (Option.some.injEq _ _ ▸ hm2 : _ = m2).symm
    subst hm2e
    unfold handleClientStep
    rw [if_neg (by decide : ¬ (some "ERR" : Option String) = some "FIN"),
      if_pos (by decide : (some "ERR" : Option String) ≠ some "DATA")]

theorem claim_C9_witness :
    handleClientStep ⟨0, [], [], 400, 400, false⟩ ⟨some "ACK", SeqField.absent,
        PayloadField.absent, none⟩ = (⟨0, [], [], 400, 400, false⟩, [], true) :=
  (claim_C9 ⟨0, [], [], 400, 400, false⟩
    ⟨some "ACK", SeqField.absent, PayloadField.absent, none⟩
    (by decide) (by decide)).1

/-- C2: the window bound `base ≤ nextSeq ≤ base + windowSize` (that is,
`0 ≤ nextSeq - base ≤ windowSize`) holds at each observation point of one
iteration of the sender's steady-state loop — after filling the window,
after the acknowledgment poll, and after the timeout check — provided it
held at the top of the iteration and any acknowledgment processed names a
seq the sender has assigned (`ack < nextSeq`, true of every cumulative
acknowledgment the receiver produces in a session); the initial state
satisfies the bound for any non-negative window size. -/
theorem claim_C2 {α : Type} (data : List α) (W mms0 : ℤ) (isDyn : Bool) (tmo : ℚ)
    (now1 now2 now3 : ℚ) (s : SendState α) (m : Option CliMsg)
    (hInv : windowInv W s)
    (hAck : ∀ a : ℤ, m.bind CliMsg.ack = some a →
      a < (sendWindow data W now1 s).1.nextSeq) :
    windowInv W (sendWindow data W now1 s).1 ∧
    windowInv W (processAck isDyn now2 (sendWindow data W now1 s).1 m) ∧
    windowInv W (checkTimeout tmo now3
      (processAck isDyn now2 (sendWindow data W now1 s).1 m)).1 ∧
    (0 ≤ W → windowInv W (initSend α mms0)) := by
  have h1 : windowInv W (sendWindow data W now1 s).1 :=
    sendWindowF_inv data W now1 _ s hInv.1 hInv.2
  have h2 : windowInv W (processAck isDyn now2 (sendWindow data W now1 s).1 m) :=
    processAck_inv W isDyn now2 _ m h1 hAck
  refine ⟨h1, h2, ?_, ?_⟩
  · obtain ⟨hc1, hc2, _⟩ := checkTimeout_fields tmo now3
      (processAck isDyn now2 (sendWindow data W now1 s).1 m)
    exact ⟨by rw [hc1, hc2]; exact h2.1, by rw [hc1, hc2]; exact h2.2⟩
  · intro hW
    refine ⟨le_refl _, ?_⟩
    show (0 : ℤ) ≤ 0 + W
    omega

theorem claim_C2_witness :
    windowInv 4 (sendWindow ([] : List ℕ) 4 0 (initSend ℕ 1)).1 :=
  (claim_C2 ([] : List ℕ) 4 1 false 5 0 0 0 (initSend ℕ 1) none (by decide)
    (fun a h => nomatch h)).1

/-- C3 (counterexample): the claim says that on a cumulative
acknowledgment with `ack ≥ base` the sender drops every buffered entry
with seq below the new base, leaving the buffer keyed exactly by
`[base, nextSeq)`. The code never removes anything from
`sent_packets_buffer`: from base 0 with segments 0 and 1 outstanding,
processing ack 0 moves base to 1 yet seq 0 is still buffered. -/
theorem claim_C3_counterexample :
    (processAck false 0 (⟨2, [(0, [0]), (1, [1])], 0, 2, 1, none⟩ : SendState ℕ)
      (some ⟨some "ACK", some 0, none⟩)).base = 1 ∧
    dlookup 0 (processAck false 0
      (⟨2, [(0, [0]), (1, [1])], 0, 2, 1, none⟩ : SendState ℕ)
      (some ⟨some "ACK", some 0, none⟩)).buffer = some [0] := by
  constructor
  · rfl
  · rfl

/-- C3 (amended): when the sender processes a cumulative acknowledgment
with `ack ≥ base` it sets `base = ack + 1` but drops nothing: the
outstanding buffer is left entirely unchanged (so its keys remain exactly
`[0, nextSeq)` — every segment ever sent — a superset of
`[base, nextSeq)`, rather than exactly `[base, nextSeq)`). -/
theorem claim_C3 {α : Type} (isDyn : Bool) (now : ℚ) (s : SendState α)
    (msg : CliMsg) (a : ℤ) (hm : msg.mtype = some "ACK") (ha : msg.ack = some a)
    (hge : s.base ≤ a) :
    (processAck isDyn now s (some msg)).base = a + 1 ∧
    (processAck isDyn now s (some msg)).buffer = s.buffer ∧
    (processAck isDyn now s (some msg)).nextSeq = s.nextSeq ∧
    ((∀ q : ℤ, (dlookup q s.buffer).isSome ↔ (0 ≤ q ∧ q < s.nextSeq)) →
      ∀ q : ℤ, (dlookup q (processAck isDyn now s (some msg)).buffer).isSome ↔
        (0 ≤ q ∧ q < (processAck isDyn now s (some msg)).nextSeq)) := by
  obtain ⟨hb, hbuf, hnext⟩ := processAckMsg_fields isDyn now s msg a hm ha hge
  refine ⟨hb, hbuf, hnext, ?_⟩
  intro hdom q
  show (dlookup q (processAckMsg isDyn now s msg).buffer).isSome ↔
    (0 ≤ q ∧ q < (processAckMsg isDyn now s msg).nextSeq)
  rw [show (processAckMsg isDyn now s msg).buffer = s.buffer from hbuf,
    show (processAckMsg isDyn now s msg).nextSeq = s.nextSeq from hnext]
  exact hdom q

theorem claim_C3_witness :
    (processAck false 0 (⟨2, [(0, [0]), (1, [1])], 0, 2, 1, none⟩ : SendState ℕ)
      (some ⟨some "ACK", some 1, none⟩)).base = 1 + 1 ∧
    (processAck false 0 (⟨2, [(0, [0]), (1, [1])], 0, 2, 1, none⟩ : SendState ℕ)
      (some ⟨some "ACK", some 1, none⟩)).buffer = [(0, [0]), (1, [1])] :=
  ⟨(claim_C3 false 0 (⟨2, [(0, [0]), (1, [1])], 0, 2, 1, none⟩ : SendState ℕ)
      ⟨some "ACK", some 1, none⟩ 1 rfl rfl (by decide)).1,
   (claim_C3 false 0 (⟨2, [(0, [0]), (1, [1])], 0, 2, 1, none⟩ : SendState ℕ)
      ⟨some "ACK", some 1, none⟩ 1 rfl rfl (by decide)).2.1⟩

/-- C4: when the retransmission timer is armed and more than the
configured timeout has elapsed, the sender emits one DATA record for each
seq of `[base, nextSeq)` — each exactly once, in order — whose payload is
exactly the entry stored in the buffer, and rearms the timer to "now"
while changing nothing else; moreover a buffered entry is never rewritten
by any later fill, acknowledgment or timeout step, so the retransmitted
bytes are the ones stored at the original transmission, not re-cut with
the current maximum segment size. -/
theorem claim_C4 {α : Type} (tmo now t : ℚ) (s : SendState α)
    (ht : s.timer = some t) (he : now - t > tmo)
    (hdom : ∀ q ∈ outSeqs s, (dlookup q s.buffer).isSome) :
    ((checkTimeout tmo now s).2.map Prod.fst = outSeqs s) ∧
    (outSeqs s).Nodup ∧
    (∀ e ∈ (checkTimeout tmo now s).2, dlookup e.1 s.buffer = some e.2) ∧
    (checkTimeout tmo now s).1 = { s with timer := some now } ∧
    (∀ (s0 : SendState α) (d2 : List α) (W2 : ℤ) (n2 : ℚ) (q : ℤ) (v : List α),
      q < s0.nextSeq → dlookup q s0.buffer = some v →
      dlookup q (sendWindow d2 W2 n2 s0).1.buffer = some v) ∧
    (∀ (s0 : SendState α) (d2 : Bool) (n2 : ℚ) (m2 : Option CliMsg),
      (processAck d2 n2 s0 m2).buffer = s0.buffer) ∧
    (∀ (s0 : SendState α) (t2 n2 : ℚ), (checkTimeout t2 n2 s0).1.buffer = s0.buffer) := by
  have hred : checkTimeout tmo now s =
      ({ s with timer := some now },
        (outSeqs s).filterMap (fun q => (dlookup q s.buffer).map (fun p => (q, p)))) := by
    unfold checkTimeout
    split
    · rename_i hq
      rw [ht] at hq
      exact absurd hq (by simp)
    · rename_i t2 hq
      rw [ht] at hq
      injection hq with hq2
      subst hq2
      rw [if_pos he]
  refine ⟨?_, outSeqs_nodup s, ?_, ?_, ?_, ?_, ?_⟩
  · rw [hred]
    exact filterMap_lookup_fst s.buffer (outSeqs s) hdom
  · intro e hee
    rw [hred] at hee
    exact mem_filterMap_lookup s.buffer (outSeqs s) hee
  · rw [hred]
  · intro s0 d2 W2 n2 q v hq hv
    exact sendWindowF_buffer_persist d2 W2 n2 _ s0 hq hv
  · intro s0 d2 n2 m2
    exact processAck_buffer d2 n2 s0 m2
  · intro s0 t2 n2
    exact (checkTimeout_fields t2 n2 s0).2.2

theorem claim_C4_witness :
    (checkTimeout 5 10 (⟨2, [(0, [true])], 0, 1, 400, some 0⟩ : SendState Bool)).2.map
        Prod.fst = outSeqs (⟨2, [(0, [true])], 0, 1, 400, some 0⟩ : SendState Bool) :=
  (claim_C4 5 10 0 (⟨2, [(0, [true])], 0, 1, 400, some 0⟩ : SendState Bool)
    rfl (by norm_num) (by decide)).1

/-- C8: with the adaptive flag set, after a DATA segment has been accepted
(valid integer seq not below `rcv_base`, payload within the current
`mss`), the receiver adjusts `mss` from the post-drain reorder buffer:
more than 2 undelivered entries shrink it by 20, floored at 20; an empty
buffer grows it by 10, capped at the originally configured ceiling; in
every other case it is unchanged. -/
theorem claim_C8 (s : RecvState) (m : SrvMsg) (q : ℤ) (p : String)
    (hm : m.mtype = some "DATA") (hq : m.seq = SeqField.val q)
    (hp : m.payload = PayloadField.str p) (hge : s.rcvBase ≤ q)
    (hsz : (p.utf8ByteSize : ℤ) ≤ s.mss) (hdyn : s.dynMss = true) :
    (2 < (deliverStep s q p).rcvBuffer.length →
      (handleClientStep s m).1.mss = max 20 (s.mss - 20)) ∧
    ((deliverStep s q p).rcvBuffer.length = 0 →
      (handleClientStep s m).1.mss = min s.origMss (s.mss + 10)) ∧
    (0 < (deliverStep s q p).rcvBuffer.length →
      (deliverStep s q p).rcvBuffer.length ≤ 2 →
      (handleClientStep s m).1.mss = s.mss) := by
  have hstep : (handleClientStep s m).1 = adaptStep (deliverStep s q p) := by
    rw [handleClientStep_data s m hm, hq, hp]
    simp only [handleData, payloadOf]
    rw [if_neg (by omega : ¬ q < s.rcvBase),
      if_neg (by omega : ¬ (p.utf8ByteSize : ℤ) > s.mss)]
  have hdyn2 : (deliverStep s q p).dynMss = true := by
    unfold deliverStep
    split
    · exact hdyn
    · exact hdyn
  have hmss2 : (deliverStep s q p).mss = s.mss := by
    unfold deliverStep
    split
    · rfl
    · rfl
  have horig2 : (deliverStep s q p).origMss = s.origMss := by
    unfold deliverStep
    split
    · rfl
    · rfl
  rw [hstep]
  unfold adaptStep
  rw [if_pos hdyn2]
  refine ⟨?_, ?_, ?_⟩
  · intro h
    rw [if_pos h]
    show max 20 ((deliverStep s q p).mss - 20) = max 20 (s.mss - 20)
    rw [hmss2]
  · intro h
    rw [if_neg (by omega : ¬ 2 < (deliverStep s q p).rcvBuffer.length), if_pos h]
    show min (deliverStep s q p).origMss ((deliverStep s q p).mss + 10) =
      min s.origMss (s.mss + 10)
    rw [hmss2, horig2]
  · intro h1 h2
    rw [if_neg (by omega : ¬ 2 < (deliverStep s q p).rcvBuffer.length),
      if_neg (by omega : ¬ (deliverStep s q p).rcvBuffer.length = 0)]
    exact hmss2

theorem claim_C8_witness :
    (handleClientStep ⟨0, [(2, "b"), (3, "c"), (5, "d")], [], 400, 400, true⟩
      ⟨some "DATA", SeqField.val 7, PayloadField.str "x", none⟩).1.mss =
      max 20 (400 - 20) :=
  (claim_C8 ⟨0, [(2, "b"), (3, "c"), (5, "d")], [], 400, 400, true⟩
    ⟨some "DATA", SeqField.val 7, PayloadField.str "x", none⟩ 7 "x"
    rfl rfl rfl (by decide) (by decide) rfl).1 (by decide)

/-- C10: the receiver treats a DATA record with no payload field exactly
as one carrying the empty string: for a non-negative `mss` the empty
payload passes the size check and, at or above `rcv_base`, takes the
buffer-and-drain path; when its seq equals `rcv_base` (and the next seq
is not already buffered) it advances `rcv_base` by one and appends the
empty string to `delivered`; when its seq is above `rcv_base` (and
`rcv_base` itself is not buffered) the empty string sits in the reorder
buffer at that seq. -/
theorem claim_C10 (s : RecvState) (q : ℤ) (r : Option String) :
    handleClientStep s ⟨some "DATA", SeqField.val q, PayloadField.absent, r⟩ =
      handleClientStep s ⟨some "DATA", SeqField.val q, PayloadField.str "", r⟩ ∧
    (0 ≤ s.mss → s.rcvBase ≤ q →
      (handleClientStep s ⟨some "DATA", SeqField.val q, PayloadField.absent, r⟩).1 =
        adaptStep (deliverStep s q "")) ∧
    (0 ≤ s.mss → q = s.rcvBase → dlookup (s.rcvBase + 1) s.rcvBuffer = none →
      (handleClientStep s ⟨some "DATA", SeqField.val q, PayloadField.absent, r⟩).1.rcvBase
          = s.rcvBase + 1 ∧
      (handleClientStep s ⟨some "DATA", SeqField.val q, PayloadField.absent, r⟩).1.appData
          = s.appData ++ [""]) ∧
    (0 ≤ s.mss → s.rcvBase < q → dlookup s.rcvBase s.rcvBuffer = none →
      dlookup q (handleClientStep s
        ⟨some "DATA", SeqField.val q, PayloadField.absent, r⟩).1.rcvBuffer = some "") := by
  have hempty : ("".utf8ByteSize : ℤ) = 0 := by decide
  have hstep : ∀ hmss : 0 ≤ s.mss, ∀ hge : s.rcvBase ≤ q,
      (handleClientStep s ⟨some "DATA", SeqField.val q, PayloadField.absent, r⟩).1 =
        adaptStep (deliverStep s q "") := by
    intro hmss hge
    rw [handleClientStep_data _ _ rfl]
    simp only [handleData, payloadOf]
    rw [if_neg (by omega : ¬ q < s.rcvBase),
      if_neg (by omega : ¬ ("".utf8ByteSize : ℤ) > s.mss)]
  refine ⟨?_, hstep, ?_, ?_⟩
  · rw [handleClientStep_data _ _ rfl, handleClientStep_data _ _ rfl]
    rfl
  · intro hmss hqe hnext
    have hds : deliverStep s q "" =
        { s with rcvBase := s.rcvBase + 1,
                 rcvBuffer := derase s.rcvBase s.rcvBuffer,
                 appData := s.appData ++ [""] } := by
      subst hqe
      unfold deliverStep
      rw [if_pos (le_refl _)]
      rw [deliverLoop_insert_eq s.rcvBase "" s.rcvBuffer s.appData hnext]
    rw [hstep hmss (by omega), hds, adaptStep_rcvBase, adaptStep_appData]
    exact ⟨rfl, rfl⟩
  · intro hmss hgt hbase
    have hds : deliverStep s q "" =
        { s with rcvBase := s.rcvBase,
                 rcvBuffer := dinsert q "" s.rcvBuffer,
                 appData := s.appData } := by
      unfold deliverStep
      rw [if_pos (by omega : s.rcvBase ≤ q)]
      rw [deliverLoop_none s.rcvBase (dinsert q "" s.rcvBuffer) s.appData
        (by rw [dlookup_dinsert_ne _ _ (by omega : s.rcvBase ≠ q)]; exact hbase)]
    rw [hstep hmss (by omega), adaptStep_rcvBuffer, hds]
    exact dlookup_dinsert_self q "" s.rcvBuffer

theorem claim_C10_witness :
    ((handleClientStep (initRecv 400 false)
        ⟨some "DATA", SeqField.val 0, PayloadField.absent, none⟩).1.rcvBase =
      (initRecv 400 false).rcvBase + 1 ∧
    (handleClientStep (initRecv 400 false)
        ⟨some "DATA", SeqField.val 0, PayloadField.absent, none⟩).1.appData =
      (initRecv 400 false).appData ++ [""]) ∧
    dlookup 5 (handleClientStep (initRecv 400 false)
        ⟨some "DATA", SeqField.val 5, PayloadField.absent, none⟩).1.rcvBuffer = some "" :=
  ⟨(claim_C10 (initRecv 400 false) 0 none).2.2.1 (by decide) (by decide) (by decide),
   (claim_C10 (initRecv 400 false) 5 none).2.2.2 (by decide) (by decide) (by decide)⟩

/-- C1: for any source cut into segments `segs`, any arrival order and any
duplication of segments (a list of arrivals covering exactly the seqs
`0..k`, each at least once, each segment within the minimum segment size),
once the receiver has processed them all, `rcv_base` is `k + 1` and the
delivered accumulator is the exact concatenation of the first `k + 1`
segments in original order; and at every intermediate point the
accumulator equals the concatenation of segments `0..rcv_base - 1`. -/
theorem claim_C1 (segs : ℕ → String) (k : ℕ) (arrivals : List ℕ) (mss0 : ℤ)
    (dyn : Bool) (hcov : ∀ n, n ≤ k → n ∈ arrivals) (hrng : ∀ n ∈ arrivals, n ≤ k)
    (hsz : ∀ n, n ≤ k → ((segs n).utf8ByteSize : ℤ) ≤ 20) (hm : 20 ≤ mss0) :
    (runServer (initRecv mss0 dyn) (arrivals.map (dataMsg segs))).1.rcvBase =
      (k : ℤ) + 1 ∧
    (runServer (initRecv mss0 dyn) (arrivals.map (dataMsg segs))).1.appData =
      (List.range (k + 1)).map segs ∧
    String.join
        ((runServer (initRecv mss0 dyn) (arrivals.map (dataMsg segs))).1.appData) =
      String.join ((List.range (k + 1)).map segs) ∧
    (∀ i : ℕ,
      (runServer (initRecv mss0 dyn) ((arrivals.take i).map (dataMsg segs))).1.appData =
        (List.range (runServer (initRecv mss0 dyn)
          ((arrivals.take i).map (dataMsg segs))).1.rcvBase.toNat).map segs) := by
  have hsz2 : ∀ n ∈ arrivals, ((segs n).utf8ByteSize : ℤ) ≤ 20 :=
    fun n hn => hsz n (hrng n hn)
  have hinv := recvInv_run segs arrivals [] (initRecv mss0 dyn)
    (recvInv_init segs mss0 dyn hm) hsz2
  rw [List.append_nil] at hinv
  obtain ⟨hb0, _, _, happ, hnone, hbuf, hdone, hdel⟩ := hinv
  have hble :
      (runServer (initRecv mss0 dyn) (arrivals.map (dataMsg segs))).1.rcvBase ≤
        (k : ℤ) + 1 := by
    by_contra hc
    push_neg at hc
    have h1 := hdel (k + 1) (by push_cast; omega)
    have h2 := hrng (k + 1) (List.mem_reverse.mp h1)
    omega
  have hbge :
      (k : ℤ) + 1 ≤
        (runServer (initRecv mss0 dyn) (arrivals.map (dataMsg segs))).1.rcvBase := by
    by_contra hc
    push_neg at hc
    have hj : (((runServer (initRecv mss0 dyn)
        (arrivals.map (dataMsg segs))).1.rcvBase.toNat : ℤ)) =
        (runServer (initRecv mss0 dyn) (arrivals.map (dataMsg segs))).1.rcvBase :=
      Int.toNat_of_nonneg hb0
    have hjk : (runServer (initRecv mss0 dyn)
        (arrivals.map (dataMsg segs))).1.rcvBase.toNat ≤ k := by omega
    have hmem2 : (runServer (initRecv mss0 dyn)
        (arrivals.map (dataMsg segs))).1.rcvBase.toNat ∈ arrivals.reverse :=
      List.mem_reverse.mpr (hcov _ hjk)
    rcases hdone _ hmem2 with h1 | h1
    · omega
    · rw [hj] at h1
      exact h1 hnone
  have hBeq :
      (runServer (initRecv mss0 dyn) (arrivals.map (dataMsg segs))).1.rcvBase =
        (k : ℤ) + 1 := le_antisymm hble hbge
  have hton : ((k : ℤ) + 1).toNat = k + 1 := by omega
  have happ2 :
      (runServer (initRecv mss0 dyn) (arrivals.map (dataMsg segs))).1.appData =
        (List.range (k + 1)).map segs := by
    rw [happ, hBeq, hton]
  refine ⟨hBeq, happ2, by rw [happ2], ?_⟩
  intro i
  have hinvT := recvInv_run segs (arrivals.take i) [] (initRecv mss0 dyn)
    (recvInv_init segs mss0 dyn hm)
    (fun n hn => hsz2 n (List.take_subset i arrivals hn))
  exact hinvT.2.2.2.1

theorem claim_C1_witness :
    (runServer (initRecv 20 false) ([0].map (dataMsg (fun _ => "")))).1.rcvBase =
      ((0 : ℕ) : ℤ) + 1 :=
  (claim_C1 (fun _ => "") 0 [0] 20 false
    (fun n hn => by
      have h0 : n = 0 := Nat.le_zero.mp hn
      subst h0
      exact List.mem_singleton_self 0)
    (by decide)
    (fun n _ => by
      show (("".utf8ByteSize : ℤ)) ≤ 20
      decide)
    (by decide)).1

end RTP
